import Mathlib

/-!
# Verification of `rendezvous` (weighted rendezvous hashing ring)

Shallow embedding of `src/rendezvous.go`.  Machine integers (`uint64`) are
modelled as `Nat` with explicit `% 2^64` where Go arithmetic wraps; Go
`float64` weights are modelled as `Rat` (they are only stored, compared and
returned — never combined arithmetically — outside of `computeScore`);
Go strings are Lean `String` (Go's bytewise comparison of UTF-8 strings
coincides with code-point lexicographic order, which is Lean's `String`
order).

The one part of the source with no exact embedding is the floating-point
body of `computeScore` (`-w / math.Log(float64(h)/float64(MaxUint64))`);
lookup operations are therefore parameterised over the function
`logScore : Nat → Rat → Rat` standing for that float computation applied
to the already-combined hash, so every theorem about lookups holds for the
actual score function as a special case.

The stateful hasher (`hash.Hash64`: `Reset`/`Write`/`Sum64`) is modelled
explicitly: a `Hasher σ` acts on a hasher state of type `σ`, and every
ring operation that calls `computeHash` threads the updated hasher state
through, exactly as the Go methods mutate `r.hash` in place.
-/

namespace Rendezvous

/-- `type Node struct { name string; hash uint64; weight float64 }`
(src/rendezvous.go lines 25–29). -/
structure Node where
  name : String
  hash : Nat
  weight : Rat
deriving DecidableEq, Repr

/-- The injected `hash.Hash64` capability: a stateful object with
`Reset`, `Write` (here specialised to writing a whole string, as
`io.WriteString` does) and `Sum64`. -/
structure Hasher (σ : Type) where
  reset : σ → σ
  write : σ → String → σ
  sum64 : σ → Nat

/-- `type Ring struct { nodes []*Node; hash stdhash.Hash64; ... }`
(src/rendezvous.go lines 19–23).  The mutex only serialises access and has
no sequential semantics; the mutable hasher is represented by its current
state `hst`. -/
structure Ring (σ : Type) where
  nodes : List Node
  hst : σ

/-- `NewWithHash` starts with an empty node slice (src/rendezvous.go
lines 40–46). -/
def emptyRing (s : σ) : Ring σ :=
  { nodes := [], hst := s }

/-- `func (r *Ring) computeHash(name string) uint64` (lines 171–175):
`Reset`, `io.WriteString`, `Sum64`.  Returns the hash together with the
hasher state left behind. -/
def computeHash (h : Hasher σ) (st : σ) (name : String) : Nat × σ :=
  let s := h.write (h.reset st) name
  (h.sum64 s, s)

/-- Strict lexicographic order on character lists, comparing code points.
Go compares strings byte by byte; since UTF-8 preserves code-point order,
bytewise lexicographic comparison of two UTF-8 strings coincides with
code-point lexicographic comparison, which this function computes
structurally (so that it evaluates in the kernel). -/
def goStrLtAux : List Char → List Char → Bool
  | [], [] => false
  | [], _ :: _ => true
  | _ :: _, [] => false
  | a :: as, b :: bs =>
    if a.toNat < b.toNat then true
    else if b.toNat < a.toNat then false
    else goStrLtAux as bs

/-- Go's `s < t` on strings. -/
def goStrLt (a b : String) : Bool :=
  goStrLtAux a.data b.data

/-- Go's `s <= t` on strings (`a <= b` iff `¬(b < a)`). -/
def goStrLe (a b : String) : Bool :=
  !goStrLt b a

/-- `sort.Search(len(r.nodes), r.cmp(name))` with
`r.cmp(name) = fun i => r.nodes[i].name >= name` (lines 68, 88, 145,
177–181).  `sort.Search` returns the smallest index at which the predicate
holds, or the length if it holds nowhere, which is exactly `List.findIdx`. -/
def search (nodes : List Node) (name : String) : Nat :=
  nodes.findIdx (fun nd => goStrLe name nd.name)

/-- The insertion branch of `AddWithWeight` (lines 73–80): build a node
with a freshly computed hash and splice it in at index `ix`
(`append` + `copy` + overwrite is an insertion at `ix`). -/
def insertNodeAt (h : Hasher σ) (r : Ring σ) (ix : Nat) (name : String) (w : Rat) :
    Ring σ :=
  let p := computeHash h r.hst name
  { nodes := r.nodes.take ix ++ ⟨name, p.1, w⟩ :: r.nodes.drop ix, hst := p.2 }

/-- `func (r *Ring) AddWithWeight(name string, weight float64)`
(lines 64–82): binary search; if the name is already present update its
weight in place (the hash is not recomputed, so the hasher state is
untouched), otherwise insert a new node at the found index. -/
def addWithWeight (h : Hasher σ) (r : Ring σ) (name : String) (w : Rat) : Ring σ :=
  let ix := search r.nodes name
  if hix : ix < r.nodes.length then
    let nd := r.nodes.get ⟨ix, hix⟩
    if nd.name = name then
      { r with nodes := r.nodes.set ix { nd with weight := w } }
    else
      insertNodeAt h r ix name w
  else
    insertNodeAt h r ix name w

/-- `const defaultWeight = 1.0` (line 13); `func (r *Ring) Add(name string)`
(lines 60–62). -/
def add (h : Hasher σ) (r : Ring σ) (name : String) : Ring σ :=
  addWithWeight h r name 1

/-- `func (r *Ring) Remove(name string)` (lines 84–97).  After the
binary search, when the name is found the source executes
`copy(r.nodes[:ix], r.nodes[:ix+1])` — which copies the first `ix`
elements onto themselves, a no-op — and then truncates the slice by one,
so the net effect of a successful `Remove` is dropping the LAST node,
whatever `ix` is.  The embedding reproduces this behaviour faithfully. -/
def remove (r : Ring σ) (name : String) : Ring σ :=
  let ix := search r.nodes name
  if hix : ix < r.nodes.length then
    if (r.nodes.get ⟨ix, hix⟩).name = name then
      { r with nodes := r.nodes.dropLast }
    else
      r
  else
    r

/-- `func (r *Ring) Weight(name string) float64` (lines 141–151): binary
search; `0` when the search ran off the end, otherwise the weight at the
found index — note the source never checks that the node at that index is
actually named `name`. -/
def weight (r : Ring σ) (name : String) : Rat :=
  let ix := search r.nodes name
  if hix : ix < r.nodes.length then
    (r.nodes.get ⟨ix, hix⟩).weight
  else
    0

/-- `func (r *Ring) List() []string` (lines 153–162). -/
def list (r : Ring σ) : List String :=
  r.nodes.map (·.name)

/-- `func (r *Ring) Len() int` (lines 164–169). -/
def lenR (r : Ring σ) : Nat :=
  r.nodes.length

/-- `func (r *Ring) Contains(name string) bool` (lines 48–58): linear scan. -/
def containsR (r : Ring σ) (name : String) : Bool :=
  r.nodes.any (·.name == name)

/-- `func combineHashes(a, b uint64) uint64` (lines 188–196): the
xorshift* mix.  All Go `uint64` arithmetic is modulo `2^64`; the inputs
are reduced on entry (they are always `uint64` values in the source), and
an explicit `% 2^64` is applied after the left shift and the final
multiplication, the two operations that can overflow. -/
def combineHashes (a b : Nat) : Nat :=
  let x0 := (a % 2 ^ 64) ^^^ (b % 2 ^ 64)
  let x1 := x0 ^^^ (x0 >>> 12)
  let x2 := (x1 ^^^ (x1 <<< 25)) % 2 ^ 64
  let x3 := x2 ^^^ (x2 >>> 27)
  (x3 * 0x2545F4914F6CDD1D) % 2 ^ 64

/-- The xorshift* reference definition exactly as the specification words
it: with `x = a XOR b`, apply `x ^= x >> 12`, then `x ^= x << 25`, then
`x ^= x >> 27`, and return `x * 0x2545F4914F6CDD1D`, all arithmetic
modulo `2^64`. -/
def xorshiftStarSpec (a b : Nat) : Nat :=
  let s0 := ((a % 2 ^ 64) ^^^ (b % 2 ^ 64)) % 2 ^ 64
  let s1 := (s0 ^^^ (s0 >>> 12)) % 2 ^ 64
  let s2 := (s1 ^^^ (s1 <<< 25)) % 2 ^ 64
  let s3 := (s2 ^^^ (s2 >>> 27)) % 2 ^ 64
  (s3 * 0x2545F4914F6CDD1D) % 2 ^ 64

/-- `func computeScore(keyHash, nodeHash uint64, nodeWeight float64) float64`
(lines 183–186), with the floating-point part
`-w / math.Log(float64(h)/float64(MaxUint64))` abstracted as the
parameter `logScore` applied to the combined hash and the weight. -/
def computeScore (logScore : Nat → Rat → Rat) (keyHash nodeHash : Nat)
    (nodeWeight : Rat) : Rat :=
  logScore (combineHashes keyHash nodeHash) nodeWeight

/-- `func (r *Ring) LookupAll(key string) []string` (lines 99–121): hash
the key (mutating the hasher), score every node, sort by score descending
(`sort.Slice` is deterministic; its tie order among equal scores is
unspecified, modelled here by insertion sort on strict score-above), and
return the names.  The updated hasher state is returned alongside. -/
def lookupAll (h : Hasher σ) (logScore : Nat → Rat → Rat) (r : Ring σ)
    (key : String) : List String × σ :=
  let p := computeHash h r.hst key
  let scored := r.nodes.map (fun nd =>
    (nd, computeScore logScore p.1 nd.hash nd.weight))
  let sorted := scored.insertionSort (fun x y => y.2 < x.2)
  (sorted.map (fun sn => sn.1.name), p.2)

/-- Go's slice expression `s[:n]` for `n : int`: panics (modelled as
`none`) unless `0 ≤ n ≤ len(s)` (the source only evaluates it when
`n ≤ len(s)` already holds). -/
def goSliceTo (l : List α) (n : Int) : Option (List α) :=
  if 0 ≤ n ∧ n ≤ (l.length : Int) then some (l.take n.toNat) else none

/-- `func (r *Ring) LookupTopN(key string, n int) []string` (lines
123–131): all names, truncated with `names[:n]` when `len(names) >= n`;
for negative `n` that slice expression panics, modelled as `none`. -/
def lookupTopN (h : Hasher σ) (logScore : Nat → Rat → Rat) (r : Ring σ)
    (key : String) (n : Int) : Option (List String) × σ :=
  let p := lookupAll h logScore r key
  (if (p.1.length : Int) ≥ n then goSliceTo p.1 n else some p.1, p.2)

/-- `func (r *Ring) Lookup(key string) string` (lines 133–139): first
entry of `LookupTopN(key, 1)` or `""` when there is none.  (With `n = 1`
the inner slice never panics, so the `getD []` default is unreachable.) -/
def lookup (h : Hasher σ) (logScore : Nat → Rat → Rat) (r : Ring σ)
    (key : String) : String × σ :=
  let p := lookupTopN h logScore r key 1
  ((p.1.getD []).headD "", p.2)

/-! ## The default hasher: FNV-1a 64 (`fnv.New64a()` from `New()`)

`hash/fnv`'s 64-bit FNV-1a: state is the running 64-bit hash, `Reset`
sets it to the offset basis, each written byte does
`h = (h XOR byte) * prime mod 2^64`, `Sum64` returns the state. -/

/-- UTF-8 encoding of one character, as Go strings are stored and written
to the hasher byte by byte. -/
def utf8Bytes (c : Char) : List Nat :=
  let n := c.toNat
  if n < 0x80 then [n]
  else if n < 0x800 then
    [0xC0 ||| (n >>> 6), 0x80 ||| (n &&& 0x3F)]
  else if n < 0x10000 then
    [0xE0 ||| (n >>> 12), 0x80 ||| ((n >>> 6) &&& 0x3F), 0x80 ||| (n &&& 0x3F)]
  else
    [0xF0 ||| (n >>> 18), 0x80 ||| ((n >>> 12) &&& 0x3F),
      0x80 ||| ((n >>> 6) &&& 0x3F), 0x80 ||| (n &&& 0x3F)]

/-- The UTF-8 bytes of a string. -/
def strBytes (s : String) : List Nat :=
  s.data.foldl (fun acc c => acc ++ utf8Bytes c) []

/-- FNV-1a 64 offset basis, the initial state of `fnv.New64a()`. -/
def fnvInit : Nat := 14695981039346656037

/-- One FNV-1a 64 step per byte. -/
def fnvStep (h b : Nat) : Nat := ((h ^^^ b) * 1099511628211) % 2 ^ 64

/-- Writing a string to the FNV-1a 64 hasher. -/
def fnvWrite (st : Nat) (s : String) : Nat :=
  (strBytes s).foldl fnvStep st

/-- The default hasher `fnv.New64a()` as a `Hasher Nat`. -/
def fnvHasher : Hasher Nat :=
  { reset := fun _ => fnvInit, write := fnvWrite, sum64 := id }

/-- A ring built with the default hasher by `Add`-ing each name in turn,
as `New(); Add(n₁); …` does. -/
def mkRing (names : List String) : Ring Nat :=
  names.foldl (add fnvHasher) (emptyRing fnvInit)

/-! ## Mutation sequences (for the sorted invariant) -/

/-- One public mutation call. -/
inductive ROp where
  | add : String → ROp
  | addW : String → Rat → ROp
  | rem : String → ROp

/-- Apply one mutation to the ring. -/
def applyOp (h : Hasher σ) (r : Ring σ) : ROp → Ring σ
  | .add name => add h r name
  | .addW name w => addWithWeight h r name w
  | .rem name => remove r name

/-- Run a sequence of mutations starting from the empty ring. -/
def runOps (h : Hasher σ) (s : σ) (ops : List ROp) : Ring σ :=
  ops.foldl (applyOp h) (emptyRing s)

/-! ## Order lemmas for the Go string comparison -/

theorem charToNat_inj {a b : Char} (h : a.toNat = b.toNat) : a = b := by
  rw [← Char.ofNat_toNat a, h, Char.ofNat_toNat]

theorem goStrLtAux_irrefl : ∀ l : List Char, goStrLtAux l l = false
  | [] => rfl
  | c :: cs => by
    simp only [goStrLtAux, Nat.lt_irrefl, if_false]
    exact goStrLtAux_irrefl cs

theorem goStrLtAux_trans (a : List Char) : ∀ b c,
    goStrLtAux a b = true → goStrLtAux b c = true → goStrLtAux a c = true := by
  induction a with
  | nil =>
    intro b c h1 h2
    cases b with
    | nil => simp [goStrLtAux] at h1
    | cons b bs =>
      cases c with
      | nil => simp [goStrLtAux] at h2
      | cons c cs => rfl
  | cons a as ih =>
    intro b c h1 h2
    cases b with
    | nil => simp [goStrLtAux] at h1
    | cons b bs =>
      cases c with
      | nil => simp [goStrLtAux] at h2
      | cons c cs =>
        simp only [goStrLtAux] at h1 h2 ⊢
        by_cases hab : a.toNat < b.toNat
        · by_cases hbc : b.toNat < c.toNat
          · simp [show a.toNat < c.toNat by omega]
          · by_cases hcb : c.toNat < b.toNat
            · simp [hbc, hcb] at h2
            · simp [show a.toNat < c.toNat by omega]
        · by_cases hba : b.toNat < a.toNat
          · simp [hab, hba] at h1
          · simp only [hab, hba, if_false] at h1
            by_cases hbc : b.toNat < c.toNat
            · simp [show a.toNat < c.toNat by omega]
            · by_cases hcb : c.toNat < b.toNat
              · simp [hbc, hcb] at h2
              · simp only [hbc, hcb, if_false] at h2
                simp only [show ¬a.toNat < c.toNat by omega,
                  show ¬c.toNat < a.toNat by omega, if_false]
                exact ih bs cs h1 h2

theorem goStrLtAux_eq_of_not_lt (a : List Char) : ∀ b,
    goStrLtAux a b = false → goStrLtAux b a = false → a = b := by
  induction a with
  | nil =>
    intro b h1 _
    cases b with
    | nil => rfl
    | cons b bs => simp [goStrLtAux] at h1
  | cons a as ih =>
    intro b h1 h2
    cases b with
    | nil => simp [goStrLtAux] at h2
    | cons b bs =>
      simp only [goStrLtAux] at h1 h2
      by_cases hab : a.toNat < b.toNat
      · simp [hab] at h1
      · by_cases hba : b.toNat < a.toNat
        · simp [hab, hba] at h2
        · simp only [hab, hba, if_false] at h1 h2
          have hcc : a = b := charToNat_inj (by omega)
          rw [hcc, ih bs h1 h2]

theorem goStrLt_irrefl (s : String) : goStrLt s s = false :=
  goStrLtAux_irrefl s.data

theorem goStrLt_trans {a b c : String} (h1 : goStrLt a b = true)
    (h2 : goStrLt b c = true) : goStrLt a c = true :=
  goStrLtAux_trans a.data b.data c.data h1 h2

theorem goStrLt_asymm {a b : String} (h1 : goStrLt a b = true) :
    goStrLt b a = false := by
  cases h2 : goStrLt b a with
  | false => rfl
  | true => exact absurd (goStrLt_irrefl a) (by simp [goStrLt_trans h1 h2])

theorem eq_of_goStrLt_false {a b : String} (h1 : goStrLt a b = false)
    (h2 : goStrLt b a = false) : a = b := by
  have h : a.data = b.data := goStrLtAux_eq_of_not_lt a.data b.data h1 h2
  cases a
  cases b
  exact congrArg String.mk h

theorem goStrLe_iff {a b : String} : goStrLe a b = true ↔ goStrLt b a = false := by
  simp [goStrLe]

theorem goStrLt_of_goStrLe_of_ne {a b : String} (h1 : goStrLe a b = true)
    (h2 : a ≠ b) : goStrLt a b = true := by
  rw [goStrLe_iff] at h1
  cases h3 : goStrLt a b with
  | true => rfl
  | false => exact absurd (eq_of_goStrLt_false h3 h1) h2

theorem goStrLt_of_not_goStrLe {a b : String} (h : goStrLe a b = false) :
    goStrLt b a = true := by
  simpa [goStrLe] using h

/-! ## Facts about `search` -/

theorem search_le_length (nodes : List Node) (name : String) :
    search nodes name ≤ nodes.length :=
  List.findIdx_le_length _

theorem search_pred_of_lt {nodes : List Node} {name : String}
    (h : search nodes name < nodes.length) :
    goStrLe name (nodes.get ⟨search nodes name, h⟩).name = true := by
  have h' : List.findIdx (fun nd => goStrLe name nd.name) nodes < nodes.length := h
  have hp := @List.findIdx_getElem _ _ _ h'
  simpa [search, List.get_eq_getElem] using hp

theorem search_pred_false_of_lt {nodes : List Node} {name : String} {j : Nat}
    (h : j < search nodes name) :
    goStrLe name ((nodes.get ⟨j, Nat.lt_of_lt_of_le h (search_le_length nodes name)⟩)).name
      = false := by
  have h' : j < List.findIdx (fun nd => goStrLe name nd.name) nodes := h
  have hp := List.not_of_lt_findIdx h'
  simpa [List.get_eq_getElem] using hp

/-! ## Small arithmetic helpers -/

theorem shiftRight_le_self (x k : Nat) : x >>> k ≤ x := by
  rw [Nat.shiftRight_eq_div_pow]
  exact Nat.div_le_self x (2 ^ k)

theorem xor_shiftRight_lt {x : Nat} (k : Nat) (hx : x < 2 ^ 64) :
    x ^^^ (x >>> k) < 2 ^ 64 :=
  Nat.xor_lt_two_pow hx (Nat.lt_of_le_of_lt (shiftRight_le_self x k) hx)

/-! ## Claim theorems -/

/-- **C1** (code bug).  The spec (and the repository's own `TestRing_Remove`)
say that on a ring containing `{a, b, c}`, `Remove("b")` yields
`List() == [a, c]`.  The source's `copy(r.nodes[:ix], r.nodes[:ix+1])` is a
no-op, so the subsequent truncation drops the last node instead: the code
actually yields `[a, b]`, removing `c` and keeping `b`.  (The no-op half of
the claim does hold: removing the absent `d` changes nothing.) -/
theorem remove_found_drops_last_node :
    list (remove (mkRing ["a", "b", "c"]) "b") = ["a", "b"] ∧
    list (mkRing ["a", "b", "c"]) = ["a", "b", "c"] ∧
    list (remove (mkRing ["a", "b", "c"]) "d") = ["a", "b", "c"] := by
  decide

/-- **C2** (code bug).  Removal of a member node `X` is supposed to leave
`Lookup(key)` unchanged for every key whose top-ranked node was not `X`.
Because `Remove` excises the last node rather than the named one, on the
ring `{a, b, c, d}` a call to `Remove("a")` in fact deletes node `d`
(and keeps `a`), so every key whose top-ranked node was `d` — such as
`"foo"`, which the repository's `TestRing_LookupAll` fixture ranks as
`[d, b, c, a, e]` under the default FNV-1a hasher — changes its lookup
result even though its top node `d` was never removed. -/
theorem remove_member_breaks_lookup_stability :
    containsR (mkRing ["a", "b", "c", "d"]) "d" = true ∧
    containsR (mkRing ["a", "b", "c", "d"]) "a" = true ∧
    list (remove (mkRing ["a", "b", "c", "d"]) "a") = ["a", "b", "c"] ∧
    containsR (remove (mkRing ["a", "b", "c", "d"]) "a") "d" = false := by
  decide

/-- **C7** (confirmed).  For every pair of 64-bit values, `combineHashes`
equals the xorshift* reference definition word for word: `x = a XOR b`,
`x ^= x >> 12`, `x ^= x << 25`, `x ^= x >> 27`, result
`x * 0x2545F4914F6CDD1D`, all arithmetic modulo `2^64`; it is a pure
function on integers with no floating-point component. -/
theorem combineHashes_matches_xorshift_star (a b : Nat) :
    combineHashes a b = xorshiftStarSpec a b := by
  have ha : a % 2 ^ 64 < 2 ^ 64 := Nat.mod_lt _ (Nat.two_pow_pos 64)
  have hb : b % 2 ^ 64 < 2 ^ 64 := Nat.mod_lt _ (Nat.two_pow_pos 64)
  have h0 : (a % 2 ^ 64) ^^^ (b % 2 ^ 64) < 2 ^ 64 := Nat.xor_lt_two_pow ha hb
  have h1 : ((a % 2 ^ 64) ^^^ (b % 2 ^ 64)) ^^^
      (((a % 2 ^ 64) ^^^ (b % 2 ^ 64)) >>> 12) < 2 ^ 64 := xor_shiftRight_lt 12 h0
  simp only [combineHashes, xorshiftStarSpec, Nat.mod_eq_of_lt h0, Nat.mod_eq_of_lt h1,
    Nat.mod_eq_of_lt (xor_shiftRight_lt 27 (Nat.mod_lt _ (Nat.two_pow_pos 64)))]

/-- **C10** (confirmed).  `Lookup` returns `""` on the empty ring, and it
also returns `""` on the non-empty ring obtained by `Add("")`, whose single
node is named `""` and is therefore top-ranked for every key and any score
function — so an empty-string result does not reliably indicate an empty
ring. -/
theorem lookup_empty_string_ambiguous {σ : Type} (h : Hasher σ) (s : σ)
    (sc : Nat → Rat → Rat) (key : String) :
    (lookup h sc (emptyRing s) key).1 = "" ∧
    (lookup h sc (add h (emptyRing s) "") key).1 = "" ∧
    lenR (add h (emptyRing s) "") = 1 ∧
    containsR (add h (emptyRing s) "") "" = true :=
  ⟨rfl, rfl, rfl, rfl⟩

/-- **C9** (confirmed).  `LookupAll` is a deterministic function of the node
set and the key: repeating the call on the ring state left behind by a
first call (which mutated only the hasher's internal state through
`Reset`/`Write`) returns the identical ordered list, for every hasher whose
`Reset` genuinely erases prior state. -/
theorem lookupAll_deterministic {σ : Type} (h : Hasher σ)
    (sc : Nat → Rat → Rat) (r : Ring σ) (key : String)
    (hreset : ∀ s₁ s₂ : σ, h.reset s₁ = h.reset s₂) :
    (lookupAll h sc { nodes := r.nodes, hst := (lookupAll h sc r key).2 } key).1
      = (lookupAll h sc r key).1 := by
  simp only [lookupAll, computeHash]
  rw [hreset (h.write (h.reset r.hst) key) r.hst]

/-- Witness for `lookupAll_deterministic`: the FNV-1a hasher's `Reset` is
constant, and the theorem applies to a concrete two-node ring. -/
theorem lookupAll_deterministic_witness :
    (lookupAll fnvHasher (fun _ _ => 0)
        { nodes := (mkRing ["a", "b"]).nodes,
          hst := (lookupAll fnvHasher (fun _ _ => 0) (mkRing ["a", "b"]) "k").2 } "k").1
      = (lookupAll fnvHasher (fun _ _ => 0) (mkRing ["a", "b"]) "k").1 :=
  lookupAll_deterministic fnvHasher (fun _ _ => 0) (mkRing ["a", "b"]) "k"
    (fun _ _ => rfl)

/-! ## LookupTopN (C4) -/

/-- The ranking always lists every node exactly once, whatever the scores. -/
theorem lookupAll_length {σ : Type} (h : Hasher σ) (sc : Nat → Rat → Rat)
    (r : Ring σ) (key : String) :
    (lookupAll h sc r key).1.length = lenR r := by
  simp [lookupAll, lenR, List.length_insertionSort]

/-- **C4 counterexample**.  The claim quantifies over every integer `n`, but
`LookupTopN(key, -1)` does not "return without error": since
`len(names) >= -1` always holds, the source evaluates `names[:-1]`, which
panics (modelled as `none`) — even on the empty ring, where the claimed
length `min(-1, 0) = -1` is impossible anyway. -/
theorem lookupTopN_negative_n_panics :
    (lookupTopN fnvHasher (fun _ _ => 0) (emptyRing fnvInit) "k" (-1)).1 = none := by
  decide

/-- **C4** (corrected).  For every ring of size `m`, every key, and every
integer `n ≥ 0`, `LookupTopN(key, n)` returns without error the first
`min(n, m)` elements of `LookupAll(key)`, a list of length `min(n, m)`;
for `n < 0` the slice expression `names[:n]` panics instead. -/
theorem lookupTopN_bounds {σ : Type} (h : Hasher σ) (sc : Nat → Rat → Rat)
    (r : Ring σ) (key : String) (n : Int) (hn : 0 ≤ n) :
    (lookupTopN h sc r key n).1 = some ((lookupAll h sc r key).1.take n.toNat) ∧
    ((lookupAll h sc r key).1.take n.toNat).length = min n.toNat (lenR r) := by
  constructor
  · simp only [lookupTopN, goSliceTo]
    by_cases hle : ((lookupAll h sc r key).1.length : Int) ≥ n
    · simp [hle, hn]
    · have hlt : (lookupAll h sc r key).1.length ≤ n.toNat := by omega
      simp [hle, List.take_of_length_le hlt]
  · rw [List.length_take, lookupAll_length]

/-- Witness for `lookupTopN_bounds` at `n = 2` on a three-node ring. -/
theorem lookupTopN_bounds_witness :
    (0 : Int) ≤ 2 ∧
    ((lookupTopN fnvHasher (fun _ _ => 0) (mkRing ["a", "b", "c"]) "k" 2).1
        = some ((lookupAll fnvHasher (fun _ _ => 0) (mkRing ["a", "b", "c"]) "k").1.take
            (2 : Int).toNat) ∧
      ((lookupAll fnvHasher (fun _ _ => 0) (mkRing ["a", "b", "c"]) "k").1.take
          (2 : Int).toNat).length
        = min (2 : Int).toNat (lenR (mkRing ["a", "b", "c"]))) :=
  ⟨by decide,
    lookupTopN_bounds fnvHasher (fun _ _ => 0) (mkRing ["a", "b", "c"]) "k" 2 (by decide)⟩

/-! ## Weight (C3) -/

/-- `find?` returns the element at the index `findIdx` finds. -/
theorem find?_eq_getElem?_findIdx (p : α → Bool) (l : List α) :
    l.find? p = l[l.findIdx p]? := by
  induction l with
  | nil => rfl
  | cons a t ih =>
    cases hp : p a with
    | true => simp [List.find?, hp, List.findIdx_cons]
    | false => simp [List.find?, hp, List.findIdx_cons, ih]

/-- `Weight` reads the entry at the search index when it exists. -/
theorem weight_eq_getElem? {σ : Type} (r : Ring σ) (name : String) :
    weight r name = ((r.nodes[search r.nodes name]?).map (·.weight)).getD 0 := by
  by_cases hix : search r.nodes name < r.nodes.length
  · simp [weight, hix, List.getElem?_eq_getElem hix, List.get_eq_getElem]
  · simp [weight, hix, List.getElem?_eq_none (Nat.le_of_not_lt hix)]

/-- **C3 counterexample**.  On the one-node ring `{b ↦ 2}` the name `"a"`
is absent, yet `Weight("a")` returns `2`, not `0`: the source never checks
that the node at the search index is actually named `name`, so an absent
name that sorts before an existing node reads that node's weight. -/
theorem weight_absent_returns_successor_weight :
    containsR (addWithWeight fnvHasher (emptyRing fnvInit) "b" 2) "a" = false ∧
    weight (addWithWeight fnvHasher (emptyRing fnvInit) "b" 2) "a" = 2 ∧
    weight (addWithWeight fnvHasher (emptyRing fnvInit) "b" 2) "a" ≠ 0 := by
  refine ⟨by decide, by decide, by decide⟩

/-- **C3** (corrected).  On a sorted ring, `Weight(name)` returns the weight
of the first node whose name is `≥ name` — hence the stored weight whenever
`name` is present — and returns `0` only when every member name is
`< name` (in particular on the empty ring). -/
theorem weight_characterization {σ : Type} (r : Ring σ) (name : String)
    (hs : List.Pairwise (fun a b : Node => goStrLt a.name b.name = true) r.nodes) :
    (weight r name =
      (match r.nodes.find? (fun nd => goStrLe name nd.name) with
        | none => 0
        | some nd => nd.weight)) ∧
    (∀ nd ∈ r.nodes, nd.name = name → weight r name = nd.weight) := by
  have hfind : weight r name =
      (match r.nodes.find? (fun nd => goStrLe name nd.name) with
        | none => 0
        | some nd => nd.weight) := by
    rw [weight_eq_getElem?, find?_eq_getElem?_findIdx]
    unfold search
    cases hx : r.nodes[List.findIdx (fun nd => goStrLe name nd.name) r.nodes]? with
    | none => rfl
    | some nd => rfl
  refine ⟨hfind, ?_⟩
  intro nd hmem hname
  obtain ⟨⟨j, hj⟩, hget⟩ := List.get_of_mem hmem
  have hpname : goStrLe name name = true := by
    simp [goStrLe, goStrLt_irrefl]
  have hexists : search r.nodes name < r.nodes.length :=
    List.findIdx_lt_length_of_exists ⟨nd, hmem, by rw [hname]; exact hpname⟩
  have hle : search r.nodes name ≤ j := by
    by_contra hcon
    have hfalse := @search_pred_false_of_lt r.nodes name j (Nat.lt_of_not_le hcon)
    rw [hget, hname, hpname] at hfalse
    exact Bool.noConfusion hfalse
  have hixname : (r.nodes.get ⟨search r.nodes name, hexists⟩).name = name := by
    rcases Nat.lt_or_ge (search r.nodes name) j with hlt | hge
    · exfalso
      have hrel := List.pairwise_iff_get.mp hs ⟨search r.nodes name, hexists⟩ ⟨j, hj⟩ hlt
      rw [hget, hname] at hrel
      have hpred := search_pred_of_lt hexists
      rw [goStrLe_iff] at hpred
      rw [hpred] at hrel
      exact Bool.noConfusion hrel
    · have hfin : (⟨search r.nodes name, hexists⟩ : Fin r.nodes.length) = ⟨j, hj⟩ :=
        Fin.ext (Nat.le_antisymm hle hge)
      rw [hfin, hget, hname]
  have hsame : r.nodes.get ⟨search r.nodes name, hexists⟩ = nd := by
    rcases Nat.lt_or_eq_of_le hle with hlt | heq
    · exfalso
      have hrel := List.pairwise_iff_get.mp hs ⟨search r.nodes name, hexists⟩ ⟨j, hj⟩ hlt
      rw [hget, hname, hixname, goStrLt_irrefl] at hrel
      exact Bool.noConfusion hrel
    · have hfin : (⟨search r.nodes name, hexists⟩ : Fin r.nodes.length) = ⟨j, hj⟩ :=
        Fin.ext heq
      rw [hfin, hget]
  have hw : weight r name = (r.nodes.get ⟨search r.nodes name, hexists⟩).weight := by
    simp [weight, hexists]
  rw [hw, hsame]

/-- Witness for `weight_characterization` on the sorted two-node ring
`{a ↦ 1, b ↦ 3/2}` queried at `"b"`. -/
theorem weight_characterization_witness :
    List.Pairwise (fun a b : Node => goStrLt a.name b.name = true)
        (addWithWeight fnvHasher (add fnvHasher (emptyRing fnvInit) "a") "b" (3/2)).nodes ∧
    ((weight (addWithWeight fnvHasher (add fnvHasher (emptyRing fnvInit) "a") "b" (3/2)) "b" =
      (match (addWithWeight fnvHasher (add fnvHasher (emptyRing fnvInit) "a") "b"
            (3/2)).nodes.find? (fun nd => goStrLe "b" nd.name) with
        | none => 0
        | some nd => nd.weight)) ∧
    (∀ nd ∈ (addWithWeight fnvHasher (add fnvHasher (emptyRing fnvInit) "a") "b"
        (3/2)).nodes, nd.name = "b" →
      weight (addWithWeight fnvHasher (add fnvHasher (emptyRing fnvInit) "a") "b" (3/2)) "b"
        = nd.weight)) :=
  ⟨by decide,
    weight_characterization
      (addWithWeight fnvHasher (add fnvHasher (emptyRing fnvInit) "a") "b" (3/2)) "b"
      (by decide)⟩

/-! ## The sorted invariant (C6) -/

/-- Strict name order on nodes: the ring invariant relation. -/
def nodeLt (a b : Node) : Prop :=
  goStrLt a.name b.name = true

instance : DecidableRel nodeLt := fun a b => by
  unfold nodeLt
  infer_instance

/-- Splicing `x` into a pairwise-ordered list at a position that every
earlier element relates into and that relates into every later element
keeps the list pairwise ordered. -/
theorem pairwise_insert_sorted {α : Type} {R : α → α → Prop} (l : List α) :
    ∀ (ix : Nat) (x : α),
      List.Pairwise R l →
      (∀ (j : Nat) (hj : j < l.length), j < ix → R (l.get ⟨j, hj⟩) x) →
      (∀ (j : Nat) (hj : j < l.length), ix ≤ j → R x (l.get ⟨j, hj⟩)) →
      List.Pairwise R (l.take ix ++ x :: l.drop ix) := by
  induction l with
  | nil =>
    intro ix x _ _ _
    simp
  | cons a t ih =>
    intro ix x hp hb ha
    cases ix with
    | zero =>
      simp only [List.take_zero, List.drop_zero, List.nil_append]
      rw [List.pairwise_cons]
      refine ⟨?_, hp⟩
      intro b hmem
      obtain ⟨⟨j, hj⟩, hget⟩ := List.get_of_mem hmem
      rw [← hget]
      exact ha j hj (Nat.zero_le j)
    | succ k =>
      simp only [List.take_succ_cons, List.drop_succ_cons, List.cons_append]
      rw [List.pairwise_cons]
      constructor
      · intro b hmem
        rcases List.mem_append.mp hmem with hmem1 | hmem1
        · exact (List.pairwise_cons.mp hp).1 b (List.take_subset k t hmem1)
        · rcases List.mem_cons.mp hmem1 with rfl | hmem2
          · exact hb 0 (Nat.succ_pos _) (Nat.succ_pos _)
          · exact (List.pairwise_cons.mp hp).1 b (List.drop_subset k t hmem2)
      · refine ih k x (List.pairwise_cons.mp hp).2 ?_ ?_
        · intro j hj hjk
          exact hb (j + 1) (Nat.succ_lt_succ hj) (Nat.succ_lt_succ hjk)
        · intro j hj hkj
          exact ha (j + 1) (Nat.succ_lt_succ hj) (Nat.succ_le_succ hkj)

/-- Overwriting a node with one of the same name keeps the node list
pairwise ordered. -/
theorem pairwise_set_same_name {nodes : List Node} {ix : Nat} (hix : ix < nodes.length)
    {nd : Node} (hname : nd.name = (nodes.get ⟨ix, hix⟩).name)
    (hs : List.Pairwise nodeLt nodes) :
    List.Pairwise nodeLt (nodes.set ix nd) := by
  have hname2 : nd.name = nodes[ix].name := by simpa using hname
  rw [List.pairwise_iff_getElem] at hs ⊢
  intro i j hi hj hij
  simp only [List.length_set] at hi hj
  rw [List.getElem_set, List.getElem_set]
  by_cases hii : ix = i
  · subst hii
    by_cases hjj : ix = j
    · omega
    · rw [if_pos rfl, if_neg hjj]
      unfold nodeLt
      rw [hname2]
      exact hs ix j hi hj hij
  · by_cases hjj : ix = j
    · subst hjj
      rw [if_neg hii, if_pos rfl]
      unfold nodeLt
      rw [hname2]
      exact hs i ix hi hj hij
    · rw [if_neg hii, if_neg hjj]
      exact hs i j hi hj hij

/-- `AddWithWeight` preserves the sorted invariant. -/
theorem addWithWeight_sorted {σ : Type} (h : Hasher σ) (r : Ring σ) (name : String)
    (w : Rat) (hs : List.Pairwise nodeLt r.nodes) :
    List.Pairwise nodeLt (addWithWeight h r name w).nodes := by
  unfold addWithWeight
  by_cases hix : search r.nodes name < r.nodes.length
  · by_cases hname : (r.nodes.get ⟨search r.nodes name, hix⟩).name = name
    · simp only [hix, dif_pos, hname, if_pos]
      exact pairwise_set_same_name hix (by rw [hname]) hs
    · simp only [hix, dif_pos, hname, if_neg, insertNodeAt]
      refine pairwise_insert_sorted r.nodes (search r.nodes name) _ hs ?_ ?_
      · intro j hj hjix
        exact goStrLt_of_not_goStrLe (search_pred_false_of_lt hjix)
      · intro j hj hixj
        have hstep : goStrLt name (r.nodes.get ⟨search r.nodes name, hix⟩).name = true :=
          goStrLt_of_goStrLe_of_ne (search_pred_of_lt hix) (fun he => hname he.symm)
        rcases Nat.lt_or_eq_of_le hixj with hlt | heq
        · have hrel := List.pairwise_iff_get.mp hs ⟨search r.nodes name, hix⟩ ⟨j, hj⟩ hlt
          exact goStrLt_trans hstep hrel
        · have hfin : (⟨j, hj⟩ : Fin r.nodes.length) = ⟨search r.nodes name, hix⟩ :=
            Fin.ext heq.symm
          rw [hfin]
          exact hstep
  · simp only [hix, dif_neg, insertNodeAt]
    refine pairwise_insert_sorted r.nodes (search r.nodes name) _ hs ?_ ?_
    · intro j hj hjix
      exact goStrLt_of_not_goStrLe (search_pred_false_of_lt hjix)
    · intro j hj hixj
      exact absurd (Nat.lt_of_le_of_lt hixj hj) hix

/-- `Remove` preserves the sorted invariant (it drops the last node or
nothing). -/
theorem remove_sorted {σ : Type} (r : Ring σ) (name : String)
    (hs : List.Pairwise nodeLt r.nodes) :
    List.Pairwise nodeLt (remove r name).nodes := by
  unfold remove
  by_cases hix : search r.nodes name < r.nodes.length
  · by_cases hname : (r.nodes.get ⟨search r.nodes name, hix⟩).name = name
    · simp only [hix, dif_pos, hname, if_pos]
      exact hs.sublist (List.dropLast_sublist r.nodes)
    · simp only [hix, dif_pos, hname, if_neg]
      exact hs
  · simp only [hix, dif_neg]
    exact hs

/-- Every mutation preserves the sorted invariant. -/
theorem applyOp_sorted {σ : Type} (h : Hasher σ) (r : Ring σ) (op : ROp)
    (hs : List.Pairwise nodeLt r.nodes) :
    List.Pairwise nodeLt (applyOp h r op).nodes := by
  cases op with
  | add name => exact addWithWeight_sorted h r name 1 hs
  | addW name w => exact addWithWeight_sorted h r name w hs
  | rem name => exact remove_sorted r name hs

/-- **C6** (confirmed).  After every finite sequence of `Add`,
`AddWithWeight` and `Remove` calls starting from the empty ring, the node
sequence is strictly ascending by name with no duplicates (`nodes[i].name <
nodes[j].name` for all `i < j`), and `List()` returns exactly those names in
that strictly ascending order. -/
theorem runOps_sorted {σ : Type} (h : Hasher σ) (s : σ) (ops : List ROp) :
    List.Pairwise nodeLt (runOps h s ops).nodes ∧
    list (runOps h s ops) = (runOps h s ops).nodes.map (fun nd => nd.name) ∧
    List.Pairwise (fun a b : String => goStrLt a b = true) (list (runOps h s ops)) := by
  have hmain : ∀ (l : List ROp) (r : Ring σ), List.Pairwise nodeLt r.nodes →
      List.Pairwise nodeLt (l.foldl (applyOp h) r).nodes := by
    intro l
    induction l with
    | nil => intro r hr; exact hr
    | cons op t ih =>
      intro r hr
      exact ih (applyOp h r op) (applyOp_sorted h r op hr)
  have hsorted : List.Pairwise nodeLt (runOps h s ops).nodes :=
    hmain ops (emptyRing s) List.Pairwise.nil
  refine ⟨hsorted, rfl, ?_⟩
  unfold list
  rw [List.pairwise_map]
  exact hsorted

/-! ## AddWithWeight on an existing name (C8) -/

/-- On a sorted node list, the binary search lands exactly on the member
with the searched name. -/
theorem search_found_of_mem {nodes : List Node} {x : String}
    (hs : List.Pairwise nodeLt nodes) {nd : Node} (hmem : nd ∈ nodes)
    (hname : nd.name = x) :
    ∃ (hix : search nodes x < nodes.length),
      nodes.get ⟨search nodes x, hix⟩ = nd := by
  obtain ⟨⟨j, hj⟩, hget⟩ := List.get_of_mem hmem
  have hpname : goStrLe x x = true := by
    simp [goStrLe, goStrLt_irrefl]
  have hexists : search nodes x < nodes.length :=
    List.findIdx_lt_length_of_exists ⟨nd, hmem, by rw [hname]; exact hpname⟩
  refine ⟨hexists, ?_⟩
  have hle : search nodes x ≤ j := by
    by_contra hcon
    have hfalse := @search_pred_false_of_lt nodes x j (Nat.lt_of_not_le hcon)
    rw [hget, hname, hpname] at hfalse
    exact Bool.noConfusion hfalse
  rcases Nat.lt_or_eq_of_le hle with hlt | heq
  · exfalso
    have hrel := List.pairwise_iff_get.mp hs ⟨search nodes x, hexists⟩ ⟨j, hj⟩ hlt
    rw [hget] at hrel
    unfold nodeLt at hrel
    rw [hname] at hrel
    have hpred := search_pred_of_lt hexists
    rw [goStrLe_iff] at hpred
    rw [hpred] at hrel
    exact Bool.noConfusion hrel
  · have hfin : (⟨search nodes x, hexists⟩ : Fin nodes.length) = ⟨j, hj⟩ := Fin.ext heq
    rw [hfin, hget]

/-- In a sorted node list, positions are determined by names. -/
theorem sorted_name_unique {nodes : List Node} (hs : List.Pairwise nodeLt nodes)
    {i j : Nat} (hi : i < nodes.length) (hj : j < nodes.length)
    (heq : (nodes.get ⟨i, hi⟩).name = (nodes.get ⟨j, hj⟩).name) : i = j := by
  rcases Nat.lt_trichotomy i j with hlt | he | hgt
  · exfalso
    have hrel := List.pairwise_iff_get.mp hs ⟨i, hi⟩ ⟨j, hj⟩ hlt
    unfold nodeLt at hrel
    rw [heq, goStrLt_irrefl] at hrel
    exact Bool.noConfusion hrel
  · exact he
  · exfalso
    have hrel := List.pairwise_iff_get.mp hs ⟨j, hj⟩ ⟨i, hi⟩ hgt
    unfold nodeLt at hrel
    rw [heq, goStrLt_irrefl] at hrel
    exact Bool.noConfusion hrel

/-- The update branch of `AddWithWeight`: when the search lands on the
searched name, the node list is overwritten in place at that index and
nothing else (in particular the hasher state) changes. -/
theorem addWithWeight_found {σ : Type} (h : Hasher σ) (r : Ring σ) (name : String)
    (w : Rat) (hix : search r.nodes name < r.nodes.length)
    (hname : (r.nodes.get ⟨search r.nodes name, hix⟩).name = name) :
    addWithWeight h r name w =
      Ring.mk (r.nodes.set (search r.nodes name)
        ({ r.nodes.get ⟨search r.nodes name, hix⟩ with weight := w })) r.hst := by
  unfold addWithWeight
  rw [dif_pos hix]
  have hname2 : r.nodes[search r.nodes name].name = name := by simpa using hname
  simp [hname2]

/-- **C8** (confirmed).  On a sorted ring containing a node `nd` named `x`,
`AddWithWeight(x, w)` finds exactly that node by binary search and replaces
only its weight: the resulting node list is the old one with the entry at
the (unique) position of `x` overwritten by a node with the same name, the
same precomputed hash and weight `w`; the hasher state is untouched (no
rehash), and `Weight(x)` afterwards returns `w`. -/
theorem addWithWeight_existing_updates_only_weight {σ : Type} (h : Hasher σ)
    (r : Ring σ) (x : String) (w : Rat)
    (hs : List.Pairwise nodeLt r.nodes) {nd : Node} (hmem : nd ∈ r.nodes)
    (hname : nd.name = x) :
    ∃ (hix : search r.nodes x < r.nodes.length),
      r.nodes.get ⟨search r.nodes x, hix⟩ = nd ∧
      (addWithWeight h r x w).nodes
        = r.nodes.set (search r.nodes x)
            { name := nd.name, hash := nd.hash, weight := w } ∧
      (addWithWeight h r x w).hst = r.hst ∧
      weight (addWithWeight h r x w) x = w ∧
      (∀ (j : Nat) (hj : j < r.nodes.length),
        (r.nodes.get ⟨j, hj⟩).name = x → j = search r.nodes x) := by
  obtain ⟨hix, hget⟩ := search_found_of_mem hs hmem hname
  have hxi : (r.nodes.get ⟨search r.nodes x, hix⟩).name = x := by
    rw [hget]
    exact hname
  have hchar := addWithWeight_found h r x w hix hxi
  have hnodes : (addWithWeight h r x w).nodes
      = r.nodes.set (search r.nodes x)
          { name := nd.name, hash := nd.hash, weight := w } := by
    rw [hchar, hget]
  refine ⟨hix, hget, hnodes, by rw [hchar], ?_, ?_⟩
  · -- Weight(x) afterwards reads the updated node.
    have hs2 : List.Pairwise nodeLt (addWithWeight h r x w).nodes :=
      addWithWeight_sorted h r x w hs
    have hlen : search r.nodes x
        < (r.nodes.set (search r.nodes x)
            { name := nd.name, hash := nd.hash, weight := w }).length := by
      simpa [List.length_set] using hix
    have hmem2 : ({ name := nd.name, hash := nd.hash, weight := w } : Node)
        ∈ (addWithWeight h r x w).nodes := by
      rw [hnodes]
      have hat : (r.nodes.set (search r.nodes x)
          { name := nd.name, hash := nd.hash, weight := w })[search r.nodes x]
          = { name := nd.name, hash := nd.hash, weight := w } :=
        List.getElem_set_self hlen
      have hmm := List.getElem_mem hlen
      rwa [hat] at hmm
    obtain ⟨hix2, hget2⟩ := search_found_of_mem hs2 hmem2 hname
    have hw : weight (addWithWeight h r x w) x
        = ((addWithWeight h r x w).nodes.get
            ⟨search (addWithWeight h r x w).nodes x, hix2⟩).weight := by
      simp [weight, hix2]
    rw [hw, hget2]
  · intro j hj hnamej
    exact sorted_name_unique hs hj hix (hnamej.trans hxi.symm)

/-- Witness for `addWithWeight_existing_updates_only_weight`: the sorted
two-node ring `{a, b}` with the member node named `"b"` and new weight `2`. -/
theorem addWithWeight_existing_updates_only_weight_witness :
    List.Pairwise nodeLt (mkRing ["a", "b"]).nodes ∧
    (mkRing ["a", "b"]).nodes.get ⟨1, by decide⟩ ∈ (mkRing ["a", "b"]).nodes ∧
    ((mkRing ["a", "b"]).nodes.get ⟨1, by decide⟩).name = "b" ∧
    (∃ (hix : search (mkRing ["a", "b"]).nodes "b" < (mkRing ["a", "b"]).nodes.length),
      (mkRing ["a", "b"]).nodes.get ⟨search (mkRing ["a", "b"]).nodes "b", hix⟩
          = (mkRing ["a", "b"]).nodes.get ⟨1, by decide⟩ ∧
      (addWithWeight fnvHasher (mkRing ["a", "b"]) "b" 2).nodes
        = (mkRing ["a", "b"]).nodes.set (search (mkRing ["a", "b"]).nodes "b")
            { name := ((mkRing ["a", "b"]).nodes.get ⟨1, by decide⟩).name,
              hash := ((mkRing ["a", "b"]).nodes.get ⟨1, by decide⟩).hash,
              weight := 2 } ∧
      (addWithWeight fnvHasher (mkRing ["a", "b"]) "b" 2).hst = (mkRing ["a", "b"]).hst ∧
      weight (addWithWeight fnvHasher (mkRing ["a", "b"]) "b" 2) "b" = 2 ∧
      (∀ (j : Nat) (hj : j < (mkRing ["a", "b"]).nodes.length),
        ((mkRing ["a", "b"]).nodes.get ⟨j, hj⟩).name = "b"
          → j = search (mkRing ["a", "b"]).nodes "b")) :=
  ⟨by decide, by decide, by decide,
    addWithWeight_existing_updates_only_weight fnvHasher (mkRing ["a", "b"]) "b" 2
      (by decide) (by decide) (by decide)⟩

end Rendezvous
